import Mathlib

/-!
Verification of the `phonetic_match` core pipeline (Solutions024/Phonetic_test_3).

Shallow embedding conventions:
* Python `float` scores are modelled exactly as rationals (`ℚ`); every arithmetic
  operation of the pipeline is exact in `ℚ`, so this is the idealised semantics of
  the floating-point program.
* Python `str` is modelled by `String`, with the ASCII case operations
  (`Char.toLower` / `Char.toUpper`), matching the ASCII-only tokens the pipeline
  produces (`re.findall("[a-zA-Z]+", ...)`).
* Optional values (`None`) are `Option`; Python truthiness on an optional string
  (`if s:`) is `pyTruthy` (present and non-empty).
* The external `metaphone.doublemetaphone` library call is a parameter
  `dm : String → String × String` of the encoder and orchestrator; concrete claims
  instantiate it with an explicit table of the library's outputs.
* `rapidfuzz.distance.JaroWinkler.similarity` is modelled by the standard
  Jaro-Winkler algorithm over `ℚ` (`jaroWinklerSim`), with prefix weight 1/10,
  prefix cap 4, boost threshold 7/10, and similarity 1 for two empty strings.
* Object identity (Python `id()` used by the assignment solver) is modelled by an
  explicit `uid : Nat` field given to every `LabeledSegment` at creation time.
-/

namespace PhoneticTest

/-! ### Generic list helpers -/

/-- Maximal runs of consecutive elements satisfying `p`, auxiliary.
The boolean is true iff the list starts with an element satisfying `p`. -/
def runsPAux (p : α → Bool) : List α → List (List α) × Bool
  | [] => ([], false)
  | a :: as =>
    let r := runsPAux p as
    if p a then
      if r.2 then
        match r.1 with
        | t :: ts => ((a :: t) :: ts, true)
        | [] => ([[a]], true)
      else ([a] :: r.1, true)
    else (r.1, false)

/-- Maximal runs of consecutive elements satisfying `p`; other elements are dropped. -/
def runsP (p : α → Bool) (l : List α) : List (List α) :=
  (runsPAux p l).1

/-- Join words with single spaces (the shape `re.sub(r"\s+", " ", ...)` followed by
`strip` leaves: words separated by one space, no leading/trailing space). -/
def joinWords : List (List Char) → List Char
  | [] => []
  | [w] => w
  | w :: w' :: ws => w ++ ' ' :: joinWords (w' :: ws)

/-! ### NameProcessor (src/phonetic_match/processor.py) -/

/-- Model of `NameProcessor.normalize_text`: lowercase, collapse whitespace runs to a single
space, strip leading/trailing whitespace. -/
def normalize_text (text : String) : String :=
  ⟨joinWords (runsP (fun c => !c.isWhitespace) (text.toList.map Char.toLower))⟩

/-- Model of `NameProcessor.extract_alpha_tokens`: `re.findall(r"[a-zA-Z]+", text)` — the
maximal runs of ASCII letters. -/
def extract_alpha_tokens (text : String) : List String :=
  (runsP Char.isAlpha text.toList).map fun cs => (⟨cs⟩ : String)

/-- Model of `NameProcessor.remove_duplicates_preserve_order`. The Python `seen` set always
holds exactly the elements of `result`, so membership in the accumulator models it. -/
def remove_duplicates_preserve_order (items : List String) : List String :=
  items.foldl (fun acc item => if item ∈ acc then acc else acc ++ [item]) []

/-- Model of `NameConfig.MUHAMMAD_VARIANTS` (a Python set; only membership is used). -/
def MUHAMMAD_VARIANTS : List String :=
  ["md", "mohd", "muhd", "moham", "muhammad", "mohammad", "muhammed", "mohammed",
   "mohamad", "mohamed"]

/-- Model of `NameConfig.STANDARD_MUHAMMAD`. -/
def STANDARD_MUHAMMAD : String := "Muhammad"

/-- Model of `NameConfig.PHONETIC_WEIGHT` (0.85). -/
def PHONETIC_WEIGHT : ℚ := 85 / 100

/-- Model of `NameConfig.WORD_SIM_WEIGHT` (0.15). -/
def WORD_SIM_WEIGHT : ℚ := 15 / 100

/-- Model of `NameConfig.SCORE_MULTIPLIER` (100.0). -/
def SCORE_MULTIPLIER : ℚ := 100

/-- Model of `NameProcessor.normalize_muhammad`. -/
def normalize_muhammad (token : String) : Option String :=
  if token ∈ MUHAMMAD_VARIANTS then some STANDARD_MUHAMMAD else none

/-- Python `str.capitalize()`: first character uppercased, the rest lowercased
(ASCII model). -/
def pyCapitalize (s : String) : String :=
  match s.toList with
  | [] => ""
  | c :: cs => ⟨c.toUpper :: cs.map Char.toLower⟩

/-- The loop body of `NameProcessor.extract_name_segments`: append the canonical
Muhammad form for an alias, else the capitalized token when its length exceeds 1. -/
def nsStep (segments : List String) (token : String) : List String :=
  match normalize_muhammad token with
  | some normalized => segments ++ [normalized]
  | none => if token.length > 1 then segments ++ [pyCapitalize token] else segments

/-- Model of `NameProcessor.extract_name_segments`: the per-token loop, then dedup. -/
def extract_name_segments (tokens : List String) : List String :=
  remove_duplicates_preserve_order (tokens.foldl nsStep [])

/-- The loop body of `NameProcessor.extract_initials`, carrying the `buffer` of
uppercased single-character tokens; returns `(ni_joined, ni_individual)` emitted by
the remaining tokens (with the final buffer flush). -/
def initialsLoop (buffer : List String) : List String → List String × List String
  | [] => (if buffer = [] then [] else [String.join buffer], [])
  | token :: rest =>
    if token.length = 1 then
      let char := token.toUpper
      let r := initialsLoop (buffer ++ [char]) rest
      (r.1, char :: r.2)
    else
      let r := initialsLoop [] rest
      ((if buffer = [] then [] else [String.join buffer]) ++ r.1, r.2)

/-- Model of `NameProcessor.extract_initials`: `(joined initials, individual initials)`,
both deduplicated preserving order. -/
def extract_initials (tokens : List String) : List String × List String :=
  let r := initialsLoop [] tokens
  (remove_duplicates_preserve_order r.1, remove_duplicates_preserve_order r.2)

/-- The dictionary returned by `NameProcessor.process_name`
(`{"NS": ns, "NI": [ni1, ni2]}`). -/
structure NameProfile where
  NS : List String
  NI1 : List String
  NI2 : List String
deriving DecidableEq, Repr

/-- Model of `NameProcessor.process_name`. -/
def process_name (name : String) : NameProfile :=
  let normalized := normalize_text name
  let tokens := extract_alpha_tokens normalized
  let ns := extract_name_segments tokens
  let r := extract_initials tokens
  ⟨ns, r.1, r.2⟩

/-! ### Jaro-Winkler similarity
Model of `rapidfuzz.distance.JaroWinkler.similarity` (exact, over `ℚ`):
standard Jaro with match window `max(|a|,|b|)/2 - 1` (truncated at 0),
transposition count from the two matched-character sequences, Winkler prefix
boost (weight 1/10, prefix capped at 4) applied when the Jaro similarity
exceeds 7/10; two empty strings have similarity 1, one empty string gives 0. -/

/-- One matching pass of the Jaro algorithm: fold over the characters of `s1`
(with position), greedily flagging the first unflagged equal character of `s2`
inside the window. Returns the matched characters of `s1` in order together with
the flag vector over `s2`. -/
def jaroMatches (s1 s2 : List Char) (bound : Nat) : List Char × List Bool :=
  (List.range s1.length).foldl
    (fun acc i =>
      let c := s1.getD i (' ')
      let lo := i - bound
      let hi := min s2.length (i + bound + 1)
      match (List.range s2.length).find?
          (fun j => lo ≤ j && j < hi && s2.getD j (' ') == c && !(acc.2.getD j true)) with
      | some j => (acc.1 ++ [c], acc.2.set j true)
      | none => acc)
    ([], List.replicate s2.length false)

/-- Jaro similarity over `ℚ`. -/
def jaroSim (s1 s2 : List Char) : ℚ :=
  if s1.length = 0 ∧ s2.length = 0 then 1
  else if s1.length = 0 ∨ s2.length = 0 then 0
  else
    let bound := max s1.length s2.length / 2 - 1
    let r := jaroMatches s1 s2 bound
    let m := r.1.length
    if m = 0 then 0
    else
      let m2 := (s2.zip r.2).filterMap fun cf => if cf.2 then some cf.1 else none
      let mismatches := ((r.1.zip m2).filter fun p => p.1 ≠ p.2).length
      let t : ℚ := (mismatches : ℚ) / 2
      ((m : ℚ) / s1.length + (m : ℚ) / s2.length + ((m : ℚ) - t) / m) / 3

/-- Length of the common prefix of two character lists. -/
def commonStartLen : List Char → List Char → Nat
  | a :: as, b :: bs => if a = b then 1 + commonStartLen as bs else 0
  | _, _ => 0

/-- Model of `JaroWinkler.similarity` over `ℚ`. -/
def jaroWinklerSim (s1 s2 : String) : ℚ :=
  let l1 := s1.toList
  let l2 := s2.toList
  let sim := jaroSim l1 l2
  if sim > 7 / 10 then sim + (min 4 (commonStartLen l1 l2) : ℚ) * (1 / 10) * (1 - sim)
  else sim

/-! ### Data model (src/phonetic_match/models.py) -/

/-- Model of `TracedSegment` (a `NamedTuple`): a name unit with its Double Metaphone codes.
The primary code is always a string (possibly empty); the secondary is `None` when
the algorithm produced an empty alternate. -/
structure TracedSegment where
  original_text : String
  index : Nat
  primary_code : String
  secondary_code : Option String
deriving DecidableEq, Repr

/-- Model of `LabeledSegment`: a `TracedSegment` wrapped with a classification label.
`uid` models Python object identity (`id()`): every `LabeledSegment` built by the
orchestrator gets a distinct `uid` within its pool. -/
structure LabeledSegment where
  segment : TracedSegment
  label : String
  uid : Nat
deriving DecidableEq, Repr

/-- The `match_type` string returned by the pair scorer, modelled structurally:
the winning combination name plus, when the 85:15 weighting fired, the weighted
value appended to the label (`" (Weighted: 1.0->...)"`). -/
structure MatchType where
  combo : String
  weighted : Option ℚ
deriving DecidableEq, Repr

/-- A candidate pairing (the dict `{"t_seg", "r_seg", "score", "match_type"}`).
The solver's output dicts rename the first two keys to `"target_segment"` /
`"reference_segment"`; the payload is identical, so one structure models both. -/
structure Candidate where
  t_seg : LabeledSegment
  r_seg : LabeledSegment
  score : ℚ
  match_type : MatchType
deriving DecidableEq, Repr

/-! ### PhoneticEncoder (src/phonetic_match/encoder.py) -/

/-- Model of `PhoneticEncoder.encode_segments`, parametric in the external
`metaphone.doublemetaphone` function `dm`. The secondary code is stored as `none`
when the library returns an empty alternate; an empty primary is retained as-is. -/
def encode_segments (dm : String → String × String) (segments : List String) :
    List TracedSegment :=
  (List.range segments.length).map fun i =>
    let token := segments.getD i ("")
    let codes := dm token
    { original_text := token
      index := i
      primary_code := codes.1
      secondary_code := if codes.2 ≠ "" then some codes.2 else none }

/-! ### SimilarityEngine (src/phonetic_match/engine.py) -/

/-- Python truthiness of an optional string: present and non-empty. -/
def pyTruthy : Option String → Bool
  | none => false
  | some s => s ≠ ""

/-- The four primary/secondary code combinations examined by
`calculate_pair_score`, in source order. -/
def codeCombinations (t_seg r_seg : TracedSegment) :
    List (Option String × Option String × String) :=
  [(some t_seg.primary_code, some r_seg.primary_code, "Primary-Primary"),
   (some t_seg.primary_code, r_seg.secondary_code, "Primary-Secondary"),
   (t_seg.secondary_code, some r_seg.primary_code, "Secondary-Primary"),
   (t_seg.secondary_code, r_seg.secondary_code, "Secondary-Secondary")]

/-- The combination loop of `calculate_pair_score`: keep the best Jaro-Winkler
similarity (strict improvement only, so ties keep the first maximum) over the
combinations whose both codes are truthy (`if c1 and c2:` — present *and*
non-empty). Starts from `(0.0, "None")`. -/
def bestCodeSim (t_seg r_seg : TracedSegment) : ℚ × String :=
  (codeCombinations t_seg r_seg).foldl
    (fun best c =>
      if pyTruthy c.1 && pyTruthy c.2.1 then
        let sim := jaroWinklerSim (c.1.getD ("")) (c.2.1.getD (""))
        if sim > best.1 then (sim, c.2.2) else best
      else best)
    (0, "None")

/-- The literal ("word") similarity used by the perfect-match tie-break: the two
full names normalized and space-stripped when both are truthy, otherwise the two
segments' lowercased original texts. -/
def literalSim (t_seg r_seg : TracedSegment) (t_full_name r_full_name : Option String) : ℚ :=
  if pyTruthy t_full_name && pyTruthy r_full_name then
    jaroWinklerSim
      ((normalize_text (t_full_name.getD (""))).replace (" ") (""))
      ((normalize_text (r_full_name.getD (""))).replace (" ") (""))
  else
    jaroWinklerSim t_seg.original_text.toLower r_seg.original_text.toLower

/-- Model of `SimilarityEngine.calculate_pair_score`. -/
def calculate_pair_score (t_seg r_seg : TracedSegment)
    (t_full_name r_full_name : Option String) : ℚ × MatchType :=
  let best := bestCodeSim t_seg r_seg
  if best.1 = 1 then
    let word_sim := literalSim t_seg r_seg t_full_name r_full_name
    let weighted_score := best.1 * PHONETIC_WEIGHT + word_sim * WORD_SIM_WEIGHT
    (weighted_score, ⟨best.2, some weighted_score⟩)
  else (best.1, ⟨best.2, none⟩)

/-- Stable insertion of `c` into a score-descending list: `c` goes before the
first element with a strictly smaller key, hence after every earlier element with
an equal key. -/
def insertDescBy (f : α → ℚ) (c : α) : List α → List α
  | [] => [c]
  | d :: ds => if f c < f d then d :: insertDescBy f c ds else c :: d :: ds

/-- Stable descending sort by a rational key: the model of Python
`list.sort(key=..., reverse=True)` (stable; equal keys keep original order). -/
def sortDescBy (f : α → ℚ) : List α → List α
  | [] => []
  | c :: cs => insertDescBy f c (sortDescBy f cs)

/-- The greedy scan of `solve_greedy_assignment` over the sorted candidates,
carrying the `taken_target_ids` / `taken_ref_ids` sets (membership only, so lists
suffice). -/
def greedyPick : List Candidate → List Nat → List Nat → List Candidate
  | [], _, _ => []
  | cand :: rest, takenT, takenR =>
    if cand.t_seg.uid ∉ takenT ∧ cand.r_seg.uid ∉ takenR then
      cand :: greedyPick rest (cand.t_seg.uid :: takenT) (cand.r_seg.uid :: takenR)
    else greedyPick rest takenT takenR

/-- Model of `SimilarityEngine.solve_greedy_assignment`: sort by score descending (stable),
then greedily accept candidates whose segment instances are both unconsumed. -/
def solve_greedy_assignment (candidates : List Candidate) : List Candidate :=
  greedyPick (sortDescBy (fun c => c.score) candidates) [] []

/-! ### PhoneticMatcher (src/phonetic_match/matcher.py) -/

/-- Attach distinct uids (from `start`) to labelled traced segments, modelling the
distinct Python object identities of the `LabeledSegment` instances in a pool. -/
def addUids (start : Nat) : List (TracedSegment × String) → List LabeledSegment
  | [] => []
  | p :: ps => ⟨p.1, p.2, start⟩ :: addUids (start + 1) ps

/-- Floor of a rational, computed on the numerator/denominator. -/
def ratFloor (q : ℚ) : ℤ := Int.fdiv q.num q.den

/-- Round-half-to-even to the nearest integer (Python `round`'s tie rule, on the
exact rational value). -/
def roundHalfEven (q : ℚ) : ℤ :=
  let f := ratFloor q
  let frac := q - f
  if frac < 1 / 2 then f
  else if frac > 1 / 2 then f + 1
  else if f % 2 = 0 then f else f + 1

/-- Python `round(x, 2)` on the exact rational value. -/
def pyRound2 (q : ℚ) : ℚ := (roundHalfEven (q * 100) : ℚ) / 100

/-- The result dictionary of `PhoneticMatcher.match`
(`{"F1", "N", "Target", "Reference", "Matches", "AllScores"}`). -/
structure MatcherResult where
  F1 : ℚ
  N : Nat
  Target : String
  Reference : String
  Matches : List Candidate
  AllScores : List ℚ
deriving DecidableEq, Repr

/-- The target/reference unit pool built by `PhoneticMatcher.match`: encoded NS
units labelled `"[NS]"` followed by encoded joined-initial units labelled
`"[NI]"`, each wrapped as a distinct `LabeledSegment` instance. -/
def buildUnits (dm : String → String × String) (data : NameProfile) :
    List LabeledSegment :=
  addUids 0
    ((encode_segments dm data.NS).map (fun s => (s, "[NS]")) ++
     (encode_segments dm data.NI1).map (fun s => (s, "[NI]")))

/-- Candidate generation step of `PhoneticMatcher.match`: the all-vs-all cross
product of the two unit pools, keeping the pairs with positive score (in the
nested-loop order of the source). -/
def matchCandidates (dm : String → String × String)
    (target_name reference_name : String) : List Candidate :=
  let t_units := buildUnits dm (process_name target_name)
  let r_units := buildUnits dm (process_name reference_name)
  t_units.flatMap fun t =>
    r_units.filterMap fun r =>
      let sc := calculate_pair_score t.segment r.segment
        (some target_name) (some reference_name)
      if sc.1 > 0 then some ⟨t, r, sc.1, sc.2⟩ else none

/-- Model of `PhoneticMatcher.match` (named `match_names` here because `match` is a Lean
keyword), parametric in the external `doublemetaphone` function `dm`. The `debug`
printing of the source is pure output and is not modelled. -/
def match_names (dm : String → String × String)
    (target_name reference_name : String) : MatcherResult :=
  let t_units := buildUnits dm (process_name target_name)
  let candidates := matchCandidates dm target_name reference_name
  let chosen := solve_greedy_assignment candidates
  let N := t_units.length
  let scores := sortDescBy id (chosen.map fun m => m.score * SCORE_MULTIPLIER)
  let top_n_scores := scores.take N
  let final_score : ℚ := if N > 0 then top_n_scores.sum / N else 0
  { F1 := pyRound2 final_score
    N := N
    Target := target_name
    Reference := reference_name
    Matches := chosen
    AllScores := top_n_scores }

/-- Model of `ScoreNormalizer.get_label` (src/phonetic_match/normalizer.py). -/
def get_label (score : ℚ) : String :=
  if score ≤ 30 then "Names Do Not Match"
  else if 30 < score ∧ score ≤ 60 then "Weak Match"
  else if 60 < score ∧ score ≤ 75 then "Slightly Similar"
  else if 75 < score ∧ score ≤ 88 then "Somewhat Similar"
  else if 88 < score ∧ score ≤ 94 then "Highly Similar"
  else if 94 < score ∧ score < 100 then "Almost Identical"
  else if score = 100 then "Identical Name"
  else "Unknown"

/-! ### Definitions taken from the spec's words, for refinement claims -/

/-- Predicate of claim C4's reading: a code participates unless it is absent
(`None`); an empty-string code is considered present. -/
def presentNotNone : Option String → Bool
  | none => false
  | some _ => true

/-- The combination loop as claim C4 states it: skip a combination only when one
of its codes is absent (`None`). -/
def bestCodeSimNoneSkip (t_seg r_seg : TracedSegment) : ℚ × String :=
  (codeCombinations t_seg r_seg).foldl
    (fun best c =>
      if presentNotNone c.1 && presentNotNone c.2.1 then
        let sim := jaroWinklerSim (c.1.getD ("")) (c.2.1.getD (""))
        if sim > best.1 then (sim, c.2.2) else best
      else best)
    (0, "None")

/-- The pair scorer as claim C4 states it: the truthiness skip replaced by a
skip-on-`None`-only rule. -/
def calculate_pair_score_noneSkip (t_seg r_seg : TracedSegment)
    (t_full_name r_full_name : Option String) : ℚ × MatchType :=
  let best := bestCodeSimNoneSkip t_seg r_seg
  if best.1 = 1 then
    let word_sim := literalSim t_seg r_seg t_full_name r_full_name
    let weighted_score := best.1 * PHONETIC_WEIGHT + word_sim * WORD_SIM_WEIGHT
    (weighted_score, ⟨best.2, some weighted_score⟩)
  else (best.1, ⟨best.2, none⟩)

/-- Skip test of the amended claim C4: a combination is skipped exactly when
either code is absent (`None`) or the empty string. -/
def absentOrEmpty : Option String → Bool
  | none => true
  | some s => s == ""

/-- The combination loop as the amended claim C4 states it: skip a combination
exactly when one of its codes is absent or empty. -/
def bestCodeSimSkipEmpty (t_seg r_seg : TracedSegment) : ℚ × String :=
  (codeCombinations t_seg r_seg).foldl
    (fun best c =>
      if !absentOrEmpty c.1 && !absentOrEmpty c.2.1 then
        let sim := jaroWinklerSim (c.1.getD ("")) (c.2.1.getD (""))
        if sim > best.1 then (sim, c.2.2) else best
      else best)
    (0, "None")

/-- The per-token NS rule of claims C7/C8's reading: an alias contributes the
fixed canonical form, a token of length at least 2 contributes its capitalized
form, anything else contributes nothing. -/
def nsTokenForm (token : String) : Option String :=
  match normalize_muhammad token with
  | some normalized => some normalized
  | none => if token.length > 1 then some (pyCapitalize token) else none

/-- Test for an initial token (length exactly 1), as a `Bool` predicate. -/
def isInitTok (token : String) : Bool := token.length == 1

/-- Join a run of initial tokens, uppercased, into one string. -/
def joinUpper (run : List String) : String := String.join (run.map String.toUpper)

/-! ### Concrete data for witnesses and counterexamples -/

/-- Table of `metaphone.doublemetaphone` outputs, modelled from the library, for
the names appearing in the concrete claims: "John" → ("JN", "AN") and
"Smith" → ("SM0", "XMT"); every other string is mapped to empty codes. -/
def dmTable : String → String × String
  | "John" => ("JN", "AN")
  | "Smith" => ("SM0", "XMT")
  | _ => ("", "")

/-- Segment whose phonetic code matches itself perfectly (for the C3 witness). -/
def segAb : TracedSegment := ⟨"Ab", 0, "AP", none⟩

/-- Segment with an empty-string primary code and no secondary code. -/
def segEmptyX : TracedSegment := ⟨"x", 0, "", none⟩

/-- Another segment with an empty-string primary code and no secondary code. -/
def segEmptyY : TracedSegment := ⟨"y", 1, "", none⟩

/-- Pair of candidates whose segments have identical text and codes but distinct
instance identities (uids 0 and 1), for the C2 witness. -/
def candTwin0 : Candidate :=
  ⟨⟨⟨"Lee", 0, "L", none⟩, "[NS]", 0⟩, ⟨⟨"Lee", 0, "L", none⟩, "[NS]", 0⟩, 1,
   ⟨"Primary-Primary", none⟩⟩

/-- Second twin candidate (see `candTwin0`). -/
def candTwin1 : Candidate :=
  ⟨⟨⟨"Lee", 0, "L", none⟩, "[NS]", 1⟩, ⟨⟨"Lee", 0, "L", none⟩, "[NS]", 1⟩, 1,
   ⟨"Primary-Primary", none⟩⟩

/-- Helper describing the joined-initials output of `initialsLoop` for a given
pending buffer: when the token list starts with an initial (flag true), the
buffer merges into the first run; otherwise the buffer is flushed on its own. -/
def joinedAux (B : List String) : List (List String) × Bool → List String
  | (r :: rs, true) => String.join (B ++ r.map String.toUpper) :: rs.map joinUpper
  | ([], true) => []
  | (runs, false) =>
      (if B = [] then [] else [String.join B]) ++ runs.map joinUpper

theorem insertDescBy_perm (f : α → ℚ) (c : α) (l : List α) :
    (insertDescBy f c l).Perm (c :: l) := by
  induction l with
  | nil => simp [insertDescBy]
  | cons d ds ih =>
    unfold insertDescBy
    split
    · exact (ih.cons d).trans (List.Perm.swap c d ds)
    · exact List.Perm.refl _

theorem sortDescBy_perm (f : α → ℚ) (l : List α) :
    (sortDescBy f l).Perm l := by
  induction l with
  | nil => exact List.Perm.refl _
  | cons c cs ih => exact (insertDescBy_perm f c _).trans (ih.cons c)

theorem greedyPick_subset :
    ∀ (l : List Candidate) (tT tR : List Nat) (c : Candidate),
      c ∈ greedyPick l tT tR → c ∈ l := by
  intro l
  induction l with
  | nil => intro tT tR c hc; simp [greedyPick] at hc
  | cons d ds ih =>
    intro tT tR c hc
    unfold greedyPick at hc
    split at hc
    · rcases List.mem_cons.mp hc with h | h
      · exact h ▸ List.mem_cons_self d ds
      · exact List.mem_cons_of_mem d (ih _ _ c h)
    · exact List.mem_cons_of_mem d (ih _ _ c hc)

theorem greedyPick_t_facts :
    ∀ (l : List Candidate) (tT tR : List Nat),
      ((greedyPick l tT tR).map (fun c => c.t_seg.uid)).Nodup ∧
      ∀ x ∈ (greedyPick l tT tR).map (fun c => c.t_seg.uid), x ∉ tT := by
  intro l
  induction l with
  | nil => intro tT tR; simp [greedyPick]
  | cons d ds ih =>
    intro tT tR
    unfold greedyPick
    split
    · next h =>
      obtain ⟨hnd, havoid⟩ := ih (d.t_seg.uid :: tT) (d.r_seg.uid :: tR)
      simp only [List.map_cons, List.nodup_cons]
      refine ⟨⟨fun hmem => (havoid _ hmem) (List.mem_cons_self _ _), hnd⟩, ?_⟩
      intro x hx
      rcases List.mem_cons.mp hx with h' | h'
      · exact h' ▸ h.1
      · exact fun hmem => (havoid x h') (List.mem_cons_of_mem _ hmem)
    · exact ih tT tR

theorem greedyPick_r_facts :
    ∀ (l : List Candidate) (tT tR : List Nat),
      ((greedyPick l tT tR).map (fun c => c.r_seg.uid)).Nodup ∧
      ∀ x ∈ (greedyPick l tT tR).map (fun c => c.r_seg.uid), x ∉ tR := by
  intro l
  induction l with
  | nil => intro tT tR; simp [greedyPick]
  | cons d ds ih =>
    intro tT tR
    unfold greedyPick
    split
    · next h =>
      obtain ⟨hnd, havoid⟩ := ih (d.t_seg.uid :: tT) (d.r_seg.uid :: tR)
      simp only [List.map_cons, List.nodup_cons]
      refine ⟨⟨fun hmem => (havoid _ hmem) (List.mem_cons_self _ _), hnd⟩, ?_⟩
      intro x hx
      rcases List.mem_cons.mp hx with h' | h'
      · exact h' ▸ h.2
      · exact fun hmem => (havoid x h') (List.mem_cons_of_mem _ hmem)
    · exact ih tT tR

theorem solve_mem {cands : List Candidate} {c : Candidate}
    (h : c ∈ solve_greedy_assignment cands) : c ∈ cands :=
  (sortDescBy_perm _ cands).mem_iff.mp (greedyPick_subset _ _ _ c h)

/-- Claim C2: the assignment solver returns a subset of the candidates, and no
target or reference segment instance (identified by `uid`) appears in more than
one returned pairing. -/
theorem solver_assignment_exclusive (cands : List Candidate) :
    (∀ m ∈ solve_greedy_assignment cands, m ∈ cands) ∧
    ((solve_greedy_assignment cands).map (fun c => c.t_seg.uid)).Nodup ∧
    ((solve_greedy_assignment cands).map (fun c => c.r_seg.uid)).Nodup :=
  ⟨fun _ hm => solve_mem hm,
   (greedyPick_t_facts _ [] []).1,
   (greedyPick_r_facts _ [] []).1⟩

/-- Witness for C2 at a concrete candidate list whose two candidates have
identical segment text and codes but distinct instance uids: both are returned,
exclusivity holds, and the output is a subset of the input. -/
theorem solver_assignment_exclusive_witness :
    ((solve_greedy_assignment [candTwin0, candTwin1]).map (fun c => c.t_seg.uid)).Nodup ∧
    candTwin1 ∈ [candTwin0, candTwin1] ∧
    solve_greedy_assignment [candTwin0, candTwin1] = [candTwin0, candTwin1] :=
  ⟨(solver_assignment_exclusive [candTwin0, candTwin1]).2.1,
   (solver_assignment_exclusive [candTwin0, candTwin1]).1 candTwin1
     (by with_unfolding_all decide),
   by with_unfolding_all decide⟩

theorem length_le_of_nodup_of_lt {l : List Nat} {n : Nat}
    (hnd : l.Nodup) (hlt : ∀ x ∈ l, x < n) : l.length ≤ n := by
  calc l.length = l.toFinset.card := (List.toFinset_card_of_nodup hnd).symm
    _ ≤ (Finset.range n).card := Finset.card_le_card
        (fun x hx => Finset.mem_range.mpr (hlt x (List.mem_toFinset.mp hx)))
    _ = n := Finset.card_range n

theorem addUids_length (s : Nat) (ps : List (TracedSegment × String)) :
    (addUids s ps).length = ps.length := by
  induction ps generalizing s with
  | nil => rfl
  | cons p ps ih => simp [addUids, ih]

theorem addUids_uid_lt (ps : List (TracedSegment × String)) :
    ∀ (s : Nat) (u : LabeledSegment), u ∈ addUids s ps → u.uid < s + ps.length := by
  induction ps with
  | nil => intro s u hu; simp [addUids] at hu
  | cons p ps ih =>
    intro s u hu
    rcases List.mem_cons.mp (by simpa [addUids] using hu) with h | h
    · rw [h]; simp only [List.length_cons]; omega
    · have := ih (s + 1) u h; simp only [List.length_cons]; omega

theorem buildUnits_uid_lt (dm : String → String × String) (data : NameProfile)
    (u : LabeledSegment) (hu : u ∈ buildUnits dm data) :
    u.uid < (buildUnits dm data).length := by
  have h := addUids_uid_lt _ 0 u hu
  rw [buildUnits, addUids_length]
  simpa using h

theorem encode_segments_length (dm : String → String × String) (l : List String) :
    (encode_segments dm l).length = l.length := by
  simp [encode_segments]

theorem buildUnits_length (dm : String → String × String) (data : NameProfile) :
    (buildUnits dm data).length = data.NS.length + data.NI1.length := by
  rw [buildUnits, addUids_length]
  simp [encode_segments_length]

theorem matchCandidates_t_mem (dm : String → String × String) (t r : String)
    (c : Candidate) (hc : c ∈ matchCandidates dm t r) :
    c.t_seg ∈ buildUnits dm (process_name t) := by
  unfold matchCandidates at hc
  rcases List.mem_flatMap.mp hc with ⟨tu, htu, hc2⟩
  rcases List.mem_filterMap.mp hc2 with ⟨ru, _, heq⟩
  dsimp only at heq
  split at heq
  · cases heq; exact htu
  · cases heq

theorem solve_length_le (cands : List Candidate) (n : Nat)
    (h : ∀ c ∈ cands, c.t_seg.uid < n) :
    (solve_greedy_assignment cands).length ≤ n := by
  have hnd := (greedyPick_t_facts (sortDescBy (fun c => c.score) cands) [] []).1
  have hlt : ∀ x ∈ (solve_greedy_assignment cands).map (fun c => c.t_seg.uid), x < n := by
    intro x hx
    rcases List.mem_map.mp hx with ⟨c, hc, rfl⟩
    exact h c (solve_mem hc)
  have hle := length_le_of_nodup_of_lt hnd hlt
  simpa using hle

/-- Claim C10: each accepted pairing consumes a distinct target unit, so the
solver returns at most N matches (N the target unit count); hence the top-N
truncation discards nothing and `AllScores` is exactly the descending-sorted
list of all accepted scaled scores. -/
theorem matches_bounded_by_target_units (dm : String → String × String) (t r : String) :
    (match_names dm t r).Matches.length ≤ (match_names dm t r).N ∧
    (match_names dm t r).AllScores =
      sortDescBy id ((match_names dm t r).Matches.map fun m => m.score * SCORE_MULTIPLIER) := by
  have hlen : (solve_greedy_assignment (matchCandidates dm t r)).length ≤
      (buildUnits dm (process_name t)).length := by
    apply solve_length_le
    intro c hc
    exact buildUnits_uid_lt dm _ _ (matchCandidates_t_mem dm t r c hc)
  simp only [match_names]
  constructor
  · exact hlen
  · apply List.take_of_length_le
    rw [(sortDescBy_perm id _).length_eq, List.length_map]
    exact hlen

theorem if_zero_swap (n : Nat) (q : ℚ) :
    (if n > 0 then q else 0) = (if n = 0 then 0 else q) := by
  rcases Nat.eq_zero_or_pos n with h | h
  · simp [h]
  · rw [if_pos h, if_neg (Nat.pos_iff_ne_zero.mp h)]

/-- Claim C1: the final score is the sum of the top-N accepted-match scores
(scaled by 100, sorted descending) divided by N, where N is the target unit
count (deduplicated NS segments plus joined-initials groups); 0 when N = 0;
rounded to 2 decimal places in the returned result. -/
theorem final_score_aggregation (dm : String → String × String) (t r : String) :
    (match_names dm t r).N =
      (process_name t).NS.length + (process_name t).NI1.length ∧
    (match_names dm t r).F1 =
      pyRound2 (if (match_names dm t r).N = 0 then 0
        else ((sortDescBy id ((match_names dm t r).Matches.map
          fun m => m.score * 100)).take (match_names dm t r).N).sum /
          ((match_names dm t r).N : ℚ)) ∧
    ((match_names dm t r).N = 0 → (match_names dm t r).F1 = 0) := by
  refine ⟨?_, ?_, ?_⟩
  · simp only [match_names]
    exact buildUnits_length dm (process_name t)
  · simp only [match_names, SCORE_MULTIPLIER]
    exact congrArg pyRound2 (if_zero_swap _ _)
  · intro h
    simp only [match_names] at h ⊢
    rw [if_neg (by omega : ¬ (buildUnits dm (process_name t)).length > 0)]
    with_unfolding_all decide

/-- Witness for C1 at a target with no tokens: N = 0 and the final score is 0. -/
theorem final_score_aggregation_witness :
    (match_names dmTable ("") ("")).F1 = 0 :=
  (final_score_aggregation dmTable ("") ("")).2.2 (by with_unfolding_all decide)

/-- Claim C5: the label bands of the score normalizer on [0, 100]. -/
theorem get_label_bands (s : ℚ) (h0 : 0 ≤ s) (h100 : s ≤ 100) :
    (s ≤ 30 → get_label s = "Names Do Not Match") ∧
    (30 < s → s ≤ 60 → get_label s = "Weak Match") ∧
    (60 < s → s ≤ 75 → get_label s = "Slightly Similar") ∧
    (75 < s → s ≤ 88 → get_label s = "Somewhat Similar") ∧
    (88 < s → s ≤ 94 → get_label s = "Highly Similar") ∧
    (94 < s → s < 100 → get_label s = "Almost Identical") ∧
    (s = 100 → get_label s = "Identical Name") := by
  refine ⟨fun h => ?_, fun ha hb => ?_, fun ha hb => ?_, fun ha hb => ?_,
    fun ha hb => ?_, fun ha hb => ?_, fun h => ?_⟩
  · unfold get_label
    rw [if_pos h]
  · unfold get_label
    rw [if_neg (by linarith), if_pos ⟨ha, hb⟩]
  · unfold get_label
    rw [if_neg (by linarith), if_neg (by rintro ⟨h1, h2⟩; linarith), if_pos ⟨ha, hb⟩]
  · unfold get_label
    rw [if_neg (by linarith), if_neg (by rintro ⟨h1, h2⟩; linarith),
      if_neg (by rintro ⟨h1, h2⟩; linarith), if_pos ⟨ha, hb⟩]
  · unfold get_label
    rw [if_neg (by linarith), if_neg (by rintro ⟨h1, h2⟩; linarith),
      if_neg (by rintro ⟨h1, h2⟩; linarith), if_neg (by rintro ⟨h1, h2⟩; linarith),
      if_pos ⟨ha, hb⟩]
  · unfold get_label
    rw [if_neg (by linarith), if_neg (by rintro ⟨h1, h2⟩; linarith),
      if_neg (by rintro ⟨h1, h2⟩; linarith), if_neg (by rintro ⟨h1, h2⟩; linarith),
      if_neg (by rintro ⟨h1, h2⟩; linarith), if_pos ⟨ha, hb⟩]
  · subst h
    with_unfolding_all decide

/-- Witness for C5 at score 50 (inside the Weak Match band). -/
theorem get_label_bands_witness : get_label 50 = "Weak Match" :=
  (get_label_bands 50 (by norm_num) (by norm_num)).2.1 (by norm_num) (by norm_num)

/-- Claim C3: when the best code similarity is exactly 1.0 the pair scorer
returns the 85:15 blend of phonetic and literal similarity, the literal
similarity compares the normalized space-stripped full names when both are
supplied (truthy) and the segments' lowercased texts otherwise, and the
match-type label carries the weighted value. -/
theorem pair_score_perfect_weighted (t_seg r_seg : TracedSegment)
    (t_full_name r_full_name : Option String)
    (h : (bestCodeSim t_seg r_seg).1 = 1) :
    calculate_pair_score t_seg r_seg t_full_name r_full_name =
      (1 * PHONETIC_WEIGHT +
        literalSim t_seg r_seg t_full_name r_full_name * WORD_SIM_WEIGHT,
       ⟨(bestCodeSim t_seg r_seg).2,
        some (1 * PHONETIC_WEIGHT +
          literalSim t_seg r_seg t_full_name r_full_name * WORD_SIM_WEIGHT)⟩) ∧
    PHONETIC_WEIGHT = 85 / 100 ∧ WORD_SIM_WEIGHT = 15 / 100 ∧
    literalSim t_seg r_seg t_full_name r_full_name =
      (if pyTruthy t_full_name && pyTruthy r_full_name then
        jaroWinklerSim ((normalize_text (t_full_name.getD (""))).replace (" ") (""))
          ((normalize_text (r_full_name.getD (""))).replace (" ") (""))
      else jaroWinklerSim t_seg.original_text.toLower r_seg.original_text.toLower) := by
  refine ⟨?_, rfl, rfl, rfl⟩
  simp [calculate_pair_score, h]

/-- Witness for C3: a segment pair with identical codes (best similarity 1) and
no full names supplied; the blend evaluates to 1. -/
theorem pair_score_perfect_weighted_witness :
    calculate_pair_score segAb segAb none none = (1, ⟨"Primary-Primary", some 1⟩) := by
  have h := pair_score_perfect_weighted segAb segAb none none (by with_unfolding_all decide)
  rw [h.1]
  with_unfolding_all decide

/-- Counterexample to claim C4 as stated: at two segments whose primary codes
are the empty string, the skip-only-on-`None` reading evaluates the
Primary-Primary combination (two empty codes, similarity 1, triggering the
weighted branch and score 0.85), while the code's truthiness test skips every
combination and returns score 0. -/
theorem pair_score_none_skip_counterexample :
    (calculate_pair_score_noneSkip segEmptyX segEmptyY none none).1 = 17 / 20 ∧
    (calculate_pair_score segEmptyX segEmptyY none none).1 = 0 ∧
    calculate_pair_score_noneSkip segEmptyX segEmptyY none none ≠
      calculate_pair_score segEmptyX segEmptyY none none := by
  with_unfolding_all decide

/-- Amended claim C4: the pair scorer evaluates the four code combinations but
skips a combination exactly when either code is absent (`None`) or the empty
string; an empty-string primary code, though retained in the segment, never
participates in a comparison. -/
theorem pair_score_skip_absent_or_empty (t_seg r_seg : TracedSegment) :
    bestCodeSim t_seg r_seg = bestCodeSimSkipEmpty t_seg r_seg := by
  have hfun : ∀ (o : Option String), pyTruthy o = !absentOrEmpty o := by
    intro o
    cases o with
    | none => rfl
    | some s => by_cases h : s = "" <;> simp [pyTruthy, absentOrEmpty, h]
  simp [bestCodeSim, bestCodeSimSkipEmpty, hfun]

theorem toLower_eq_of_not_alpha (c : Char) (h : c.isAlpha = false) : c.toLower = c := by
  unfold Char.toLower
  dsimp only
  rw [if_neg]
  intro hc
  obtain ⟨h1, h2⟩ := hc
  simp [Char.isAlpha, Char.isUpper, Char.isLower] at h
  obtain ⟨hu, -⟩ := h
  unfold Char.toNat at h1 h2
  unfold UInt32.toNat at h1 h2
  exact absurd (hu (by simp [UInt32.le_def, BitVec.le_def]; omega))
    (by simp [UInt32.le_def, BitVec.le_def]; omega)

theorem runsPAux_all_neg (p : α → Bool) (l : List α) (h : ∀ a ∈ l, p a = false) :
    runsPAux p l = ([], false) := by
  induction l with
  | nil => rfl
  | cons a as ih =>
    have hpa := h a (List.mem_cons_self a as)
    simp [runsPAux, hpa, ih (fun x hx => h x (List.mem_cons_of_mem a hx))]

theorem runsPAux_mem (p : α → Bool) (l : List α) :
    ∀ run ∈ (runsPAux p l).1, ∀ a ∈ run, a ∈ l := by
  induction l with
  | nil => intro run hrun; simp [runsPAux] at hrun
  | cons b bs ih =>
    intro run hrun a ha
    rcases hR : runsPAux p bs with ⟨R, flag⟩
    rw [hR] at ih
    simp only [runsPAux, hR] at hrun
    by_cases hpb : p b
    · rw [if_pos hpb] at hrun
      cases flag with
      | true =>
        simp only [if_pos rfl] at hrun
        cases R with
        | nil =>
          simp at hrun
          rw [hrun] at ha
          rcases List.mem_cons.mp ha with h | h
          · exact h ▸ List.mem_cons_self b bs
          · simp at h
        | cons t ts =>
          rcases List.mem_cons.mp hrun with h | h
          · rw [h] at ha
            rcases List.mem_cons.mp ha with h' | h'
            · exact h' ▸ List.mem_cons_self b bs
            · exact List.mem_cons_of_mem b (ih t (List.mem_cons_self t ts) a h')
          · exact List.mem_cons_of_mem b (ih run (List.mem_cons_of_mem t h) a ha)
      | false =>
        simp only [Bool.false_eq_true, if_false] at hrun
        rcases List.mem_cons.mp hrun with h | h
        · rw [h] at ha
          rcases List.mem_cons.mp ha with h' | h'
          · exact h' ▸ List.mem_cons_self b bs
          · simp at h'
        · exact List.mem_cons_of_mem b (ih run h a ha)
    · rw [if_neg hpb] at hrun
      exact List.mem_cons_of_mem b (ih run hrun a ha)

theorem joinWords_mem (ws : List (List Char)) (c : Char) (hc : c ∈ joinWords ws) :
    c = ' ' ∨ ∃ w ∈ ws, c ∈ w := by
  induction ws with
  | nil => simp [joinWords] at hc
  | cons w ws ih =>
    cases ws with
    | nil => exact Or.inr ⟨w, by simp, by simpa [joinWords] using hc⟩
    | cons w' ws' =>
      rw [joinWords] at hc
      rcases List.mem_append.mp hc with h | h
      · exact Or.inr ⟨w, by simp, h⟩
      · rcases List.mem_cons.mp h with h | h
        · exact Or.inl h
        · rcases ih h with h | ⟨u, hu, hcu⟩
          · exact Or.inl h
          · exact Or.inr ⟨u, List.mem_cons_of_mem _ hu, hcu⟩

theorem normalize_chars_not_alpha (t : String) (ht : ∀ c ∈ t.toList, c.isAlpha = false) :
    ∀ c ∈ (normalize_text t).toList, c.isAlpha = false := by
  intro c hc
  have hc' : c ∈ joinWords (runsP (fun c => !c.isWhitespace) (t.toList.map Char.toLower)) := hc
  rcases joinWords_mem _ _ hc' with h | ⟨w, hw, hcw⟩
  · rw [h]; decide
  · have hwl : c ∈ t.toList.map Char.toLower :=
      runsPAux_mem _ _ w hw c hcw
    rcases List.mem_map.mp hwl with ⟨c0, hc0, rfl⟩
    rw [toLower_eq_of_not_alpha c0 (ht c0 hc0)]
    exact ht c0 hc0

theorem extract_alpha_tokens_nil_of_no_alpha (s : String)
    (h : ∀ c ∈ s.toList, c.isAlpha = false) : extract_alpha_tokens s = [] := by
  unfold extract_alpha_tokens runsP
  rw [runsPAux_all_neg _ _ h]
  rfl

/-- Claim C6: when neither input contains an alphabetic character, the match is
total and returns score 0 with an empty match list. -/
theorem no_alpha_zero_score (dm : String → String × String) (t r : String)
    (ht : ∀ c ∈ t.toList, c.isAlpha = false)
    (_hr : ∀ c ∈ r.toList, c.isAlpha = false) :
    (match_names dm t r).F1 = 0 ∧ (match_names dm t r).Matches = [] := by
  have hprof : process_name t = ⟨[], [], []⟩ := by
    have htok := extract_alpha_tokens_nil_of_no_alpha _ (normalize_chars_not_alpha t ht)
    unfold process_name
    dsimp only
    rw [htok]
    rfl
  have hunits : buildUnits dm (process_name t) = [] := by rw [hprof]; rfl
  have hcand : matchCandidates dm t r = [] := by
    unfold matchCandidates
    rw [hunits]
    rfl
  simp only [match_names]
  rw [hcand, hunits]
  refine ⟨?_, rfl⟩
  simp only [List.length_nil, gt_iff_lt, Nat.lt_irrefl, if_false]
  with_unfolding_all decide

/-- Witness for C6 at two concrete letterless strings. -/
theorem no_alpha_zero_score_witness :
    (match_names dmTable ("12 3!?") (".. 99")).F1 = 0 ∧
    (match_names dmTable ("12 3!?") (".. 99")).Matches = [] :=
  no_alpha_zero_score dmTable ("12 3!?") (".. 99") (by decide) (by decide)

theorem foldl_nsStep (tokens : List String) :
    ∀ acc, tokens.foldl nsStep acc = acc ++ tokens.filterMap nsTokenForm := by
  induction tokens with
  | nil => intro acc; simp
  | cons tk tks ih =>
    intro acc
    rw [List.foldl_cons, ih (nsStep acc tk), List.filterMap_cons]
    unfold nsStep nsTokenForm
    cases hnm : normalize_muhammad tk with
    | some v => simp
    | none =>
      by_cases hlen : tk.length > 1
      · simp [hlen]
      · simp [hlen]

theorem nsTokenForm_len1 (token : String) (h : token.length = 1) :
    nsTokenForm token = none := by
  have hnm : normalize_muhammad token = none := by
    unfold normalize_muhammad
    rw [if_neg]
    intro hmem
    simp only [MUHAMMAD_VARIANTS, List.mem_cons, List.mem_singleton,
      List.not_mem_nil, or_false] at hmem
    rcases hmem with h' | h' | h' | h' | h' | h' | h' | h' | h' | h' <;>
      (subst h'; exact absurd h (by decide))
  unfold nsTokenForm
  rw [hnm, if_neg (by omega)]

theorem nsTokenForm_isSome (token : String) :
    (nsTokenForm token).isSome ↔
      (normalize_muhammad token).isSome ∨ 2 ≤ token.length := by
  unfold nsTokenForm
  cases hnm : normalize_muhammad token with
  | some v => simp
  | none =>
    by_cases hlen : token.length > 1
    · simp [hlen]; omega
    · simp [hlen]; omega

/-- Claim C8: a token contributes to NS iff it is a canonical-alias match (the
fixed form "Muhammad" is appended) or has length at least 2 (the capitalized
token is appended); a length-1 token never contributes, even though alias
matching is checked before the length rule. -/
theorem ns_membership_rule (tokens : List String) :
    extract_name_segments tokens =
      remove_duplicates_preserve_order (tokens.filterMap nsTokenForm) ∧
    (∀ token, token.length = 1 → nsTokenForm token = none) ∧
    (∀ token, (nsTokenForm token).isSome ↔
      (normalize_muhammad token).isSome ∨ 2 ≤ token.length) := by
  refine ⟨?_, fun token h => nsTokenForm_len1 token h,
    fun token => nsTokenForm_isSome token⟩
  unfold extract_name_segments
  rw [foldl_nsStep tokens []]
  rfl

/-- Witness for C8: the alias "md" yields the canonical form, the length-1
token "j" contributes nothing, and "smith" is capitalized. -/
theorem ns_membership_rule_witness :
    nsTokenForm ("j") = none ∧
    extract_name_segments ["md", "j", "smith"] =
      remove_duplicates_preserve_order (["md", "j", "smith"].filterMap nsTokenForm) ∧
    extract_name_segments ["md", "j", "smith"] = ["Muhammad", "Smith"] :=
  ⟨(ns_membership_rule ["md", "j", "smith"]).2.1 ("j") (by decide),
   (ns_membership_rule ["md", "j", "smith"]).1,
   by decide⟩

/-- Claim C9: matching "John Smith" against itself scores exactly 100 and the
labeler calls the result "Identical Name". -/
theorem john_smith_identical :
    (match_names dmTable ("John Smith") ("John Smith")).F1 = 100 ∧
    get_label (match_names dmTable ("John Smith") ("John Smith")).F1 = "Identical Name" := by
  with_unfolding_all decide

theorem runsPAux_flag_nonempty (p : α → Bool) (l : List α)
    (h : (runsPAux p l).2 = true) : (runsPAux p l).1 ≠ [] := by
  cases l with
  | nil => simp [runsPAux] at h
  | cons a as =>
    rcases hR : runsPAux p as with ⟨R, flag⟩
    simp only [runsPAux, hR] at h ⊢
    by_cases hpa : p a
    · rw [if_pos hpa] at h ⊢
      cases flag with
      | true =>
        cases R with
        | nil => simp
        | cons t ts => simp
      | false => simp
    · rw [if_neg hpa] at h
      simp at h

theorem joinedAux_nil_eq (rf : List (List String) × Bool)
    (h : rf.2 = true → rf.1 ≠ []) : joinedAux [] rf = rf.1.map joinUpper := by
  rcases rf with ⟨R, flag⟩
  cases flag with
  | true =>
    rcases List.exists_cons_of_ne_nil (h rfl) with ⟨t, ts, rfl⟩
    simp [joinedAux, joinUpper]
  | false => simp [joinedAux]

theorem initialsLoop_snd (tokens : List String) :
    ∀ B, (initialsLoop B tokens).2 = (tokens.filter isInitTok).map String.toUpper := by
  induction tokens with
  | nil => intro B; rfl
  | cons token rest ih =>
    intro B
    by_cases htok : token.length = 1
    · have hit : isInitTok token = true := by simp [isInitTok, htok]
      simp [initialsLoop, htok, List.filter_cons, hit, ih]
    · have hit : isInitTok token = false := by simp [isInitTok]; exact htok
      simp [initialsLoop, htok, List.filter_cons, hit, ih]

theorem initialsLoop_fst (tokens : List String) :
    ∀ B, (initialsLoop B tokens).1 = joinedAux B (runsPAux isInitTok tokens) := by
  induction tokens with
  | nil => intro B; simp [initialsLoop, runsPAux, joinedAux]
  | cons token rest ih =>
    intro B
    rcases hR : runsPAux isInitTok rest with ⟨R, flag⟩
    by_cases htok : token.length = 1
    · have hit : isInitTok token = true := by simp [isInitTok, htok]
      have hL : (initialsLoop B (token :: rest)).1 =
          (initialsLoop (B ++ [token.toUpper]) rest).1 := by
        simp [initialsLoop, htok]
      rw [hL, ih (B ++ [token.toUpper]), hR]
      cases flag with
      | true =>
        have hne : R ≠ [] := by
          have hne' := runsPAux_flag_nonempty isInitTok rest (by rw [hR])
          rw [hR] at hne'
          exact hne'
        rcases List.exists_cons_of_ne_nil hne with ⟨t, ts, rfl⟩
        have hRHS : runsPAux isInitTok (token :: rest) = ((token :: t) :: ts, true) := by
          simp [runsPAux, hR, hit]
        rw [hRHS]
        simp [joinedAux, List.append_assoc]
      | false =>
        have hRHS : runsPAux isInitTok (token :: rest) = ([token] :: R, true) := by
          simp [runsPAux, hR, hit]
        rw [hRHS]
        simp [joinedAux]
    · have hit : isInitTok token = false := by simp [isInitTok]; exact htok
      have hL : (initialsLoop B (token :: rest)).1 =
          (if B = [] then [] else [String.join B]) ++ (initialsLoop [] rest).1 := by
        simp [initialsLoop, htok]
      have hne : (runsPAux isInitTok rest).2 = true → (runsPAux isInitTok rest).1 ≠ [] :=
        runsPAux_flag_nonempty isInitTok rest
      rw [hL, ih [], joinedAux_nil_eq _ hne]
      have hRHS : runsPAux isInitTok (token :: rest) = (R, false) := by
        simp [runsPAux, hR, hit]
      rw [hRHS, hR]
      simp [joinedAux]

/-- Claim C7: the extracted initials are exactly the maximal runs of length-1
tokens joined uppercased (the joined list) and all length-1 tokens uppercased
(the individual list), both deduplicated preserving first occurrence. -/
theorem initials_grouping (tokens : List String) :
    extract_initials tokens =
      (remove_duplicates_preserve_order ((runsP isInitTok tokens).map joinUpper),
       remove_duplicates_preserve_order ((tokens.filter isInitTok).map String.toUpper)) := by
  unfold extract_initials
  dsimp only
  rw [initialsLoop_snd tokens [], initialsLoop_fst tokens [],
    joinedAux_nil_eq _ (runsPAux_flag_nonempty isInitTok tokens)]
  rfl

end PhoneticTest
